import Mathlib

/-!
Verification of the IND-artist composition scorer and score ledger
(src/main.py) against its specification.

Conventions of the embedding:
* Pixel values of the edge-energy image (the output of
  `img.convert("L").filter(ImageFilter.FIND_EDGES)`) are natural numbers
  in `0..255`; a decoded image is a list of rows (`h` rows of `w` pixels),
  matching the numpy array `arr` of shape `(h, w)` before the `/ 255.0`
  normalisation, which we apply in `pixVal`.
* Real-valued float arithmetic is modelled over `ℚ` where the source is
  exact field arithmetic, and over `ℝ` where `np.hypot` (a square root)
  is involved.
* Timestamps (`datetime.utcnow()`) are modelled as rationals counting days
  since an epoch, so `timedelta(days=7)` is the constant `7` and
  `.date()` is `Int.floor`.  UTC calendar dates are integers (day numbers);
  the ISO `YYYY-MM-DD` strings of the source compare lexicographically
  exactly as their day numbers compare.
-/

namespace INDArtist

/-! ### Composition scorer (`composition_score`, src/main.py lines 50-64) -/

/-- Normalised edge intensity of one pixel: `arr = np.array(edges) / 255.0`. -/
def pixVal (p : ℕ) : ℚ := (p : ℚ) / 255

/-- Sum of `f i j p` over all pixels, where `i` is the row index, `j` the
column index and `p` the raw pixel value (models sums over the numpy grid
with `ys, xs = np.indices((h, w))`). -/
def sumOver (g : List (List ℕ)) (f : ℕ → ℕ → ℕ → ℚ) : ℚ :=
  (g.enum.map (fun ir => (ir.2.enum.map (fun jp => f ir.1 jp.1 jp.2)).sum)).sum

/-- Image height `h` (number of rows of `arr`). -/
def gridH (g : List (List ℕ)) : ℕ := g.length

/-- Image width `w` (length of each row of `arr`). -/
def gridW (g : List (List ℕ)) : ℕ := (g.headD []).length

/-- Total summed edge energy `total = arr.sum()`. -/
def gridTotal (g : List (List ℕ)) : ℚ := sumOver g (fun _ _ p => pixVal p)

/-- Energy-weighted centroid x-coordinate `cx = (arr * xs).sum() / total`. -/
def gridCx (g : List (List ℕ)) : ℚ :=
  sumOver g (fun _ j p => pixVal p * j) / gridTotal g

/-- Energy-weighted centroid y-coordinate `cy = (arr * ys).sum() / total`. -/
def gridCy (g : List (List ℕ)) : ℚ :=
  sumOver g (fun i _ p => pixVal p * i) / gridTotal g

/-- Euclidean distance (`np.hypot`) from the centroid `(cx, cy)` to a point. -/
noncomputable def distTo (g : List (List ℕ)) (q : ℚ × ℚ) : ℝ :=
  Real.sqrt (((gridCx g - q.1 : ℚ) : ℝ) ^ 2 + ((gridCy g - q.2 : ℚ) : ℝ) ^ 2)

/-- Minimum of the distances from the centroid to the four rule-of-thirds
intersection points `pts = [(w/3, h/3), (w/3, 2h/3), (2w/3, h/3), (2w/3, 2h/3)]`,
`dmin = min(dists)`. -/
noncomputable def dmin (g : List (List ℕ)) : ℝ :=
  let w : ℚ := gridW g
  let h : ℚ := gridH g
  min (min (distTo g (w / 3, h / 3)) (distTo g (w / 3, 2 * h / 3)))
    (min (distTo g (2 * w / 3, h / 3)) (distTo g (2 * w / 3, 2 * h / 3)))

/-- Normalisation scale `maxd = np.hypot(w/3, h/3)`. -/
noncomputable def maxd (g : List (List ℕ)) : ℝ :=
  Real.sqrt (((gridW g : ℝ) / 3) ^ 2 + ((gridH g : ℝ) / 3) ^ 2)

/-- The composition score, src/main.py lines 50-64: returns `5.0` when the
total edge energy is zero, otherwise `(1 - min(dmin / maxd, 1.0)) * 10.0`. -/
noncomputable def composition_score (g : List (List ℕ)) : ℝ :=
  if gridTotal g = 0 then 5
  else (1 - min (dmin g / maxd g) 1) * 10

/-- A valid decoded image: a non-empty rectangular grid of 8-bit pixels. -/
def ValidGrid (g : List (List ℕ)) : Prop :=
  g ≠ [] ∧ gridW g ≠ 0 ∧ ∀ row ∈ g, row.length = gridW g ∧ ∀ p ∈ row, p ≤ 255

instance (g : List (List ℕ)) : Decidable (ValidGrid g) := by
  unfold ValidGrid; infer_instance

theorem dmin_nonneg (g : List (List ℕ)) : 0 ≤ dmin g := by
  unfold dmin
  simp only [le_min_iff]
  exact ⟨⟨Real.sqrt_nonneg _, Real.sqrt_nonneg _⟩,
    ⟨Real.sqrt_nonneg _, Real.sqrt_nonneg _⟩⟩

theorem maxd_nonneg (g : List (List ℕ)) : 0 ≤ maxd g := Real.sqrt_nonneg _

/-- C1: For every valid decoded image (non-empty 2D pixel grid), the
composition score returned by the scorer lies in the closed interval
`[0, 10]`. -/
theorem composition_score_mem_Icc (g : List (List ℕ)) (_h : ValidGrid g) :
    composition_score g ∈ Set.Icc (0 : ℝ) 10 := by
  unfold composition_score
  split
  · constructor <;> norm_num
  · have h0 : (0 : ℝ) ≤ min (dmin g / maxd g) 1 :=
      le_min (div_nonneg (dmin_nonneg g) (maxd_nonneg g)) zero_le_one
    have h1 : min (dmin g / maxd g) 1 ≤ 1 := min_le_right _ _
    constructor
    · nlinarith
    · nlinarith

/-- Witness for C1 at the concrete one-pixel image `[[7]]`. -/
theorem composition_score_mem_Icc_witness :
    ValidGrid [[7]] ∧ composition_score [[7]] ∈ Set.Icc (0 : ℝ) 10 :=
  ⟨by decide, composition_score_mem_Icc [[7]] (by decide)⟩

/-- C2: For every image whose total summed edge energy is exactly zero
(blank/flat image), the scorer returns exactly `5.0`; the zero-total branch
returns before the division by `total` is reached. -/
theorem composition_score_of_total_zero (g : List (List ℕ))
    (h : gridTotal g = 0) : composition_score g = 5 := by
  unfold composition_score
  rw [if_pos h]

/-- Witness for C2 at the concrete blank image `[[0, 0], [0, 0]]`. -/
theorem composition_score_of_total_zero_witness :
    gridTotal [[0, 0], [0, 0]] = 0 ∧ composition_score [[0, 0], [0, 0]] = 5 :=
  ⟨by simp [gridTotal, sumOver, pixVal, List.enum],
    composition_score_of_total_zero [[0, 0], [0, 0]]
      (by simp [gridTotal, sumOver, pixVal, List.enum])⟩

/-! ### Ledger data model (the `scores.json` document, src/main.py) -/

/-- One entry of the `"images"` array: `{"user": uid, "score": score,
"ts": datetime.utcnow().isoformat()}` (src/main.py lines 120-124).
Timestamps are rational day counts, see the file header. -/
structure ScoreEvent where
  user : String
  score : ℚ
  ts : ℚ
deriving DecidableEq, Repr

/-- One entry of the `"users"` mapping: `{"scores": [...], "dates": [...]}`
(src/main.py line 125).  Dates are UTC day numbers, see the file header. -/
structure UserRec where
  scores : List ℚ
  dates : List ℤ
deriving DecidableEq, Repr

/-- The whole persisted document: `{"images": [...], "users": {...}}`
(src/main.py line 45).  The `users` dict is modelled as an
insertion-ordered association list, matching Python dict order. -/
structure Db where
  images : List ScoreEvent
  users : List (String × UserRec)
deriving DecidableEq, Repr

/-- Lookup in an insertion-ordered association list (`dict.get` /
`dict[k]`): the first binding of the key, if any. -/
def lookupU {α : Type} (u : String) : List (String × α) → Option α
  | [] => none
  | (v, r) :: rest => if v = u then some r else lookupU u rest

/-- The empty database `{"images": [], "users": {}}` returned by
`load_scores` when no file exists (src/main.py line 45). -/
def emptyDb : Db := ⟨[], []⟩

/-! ### Submission gate (`on_message`, src/main.py lines 93-131) -/

/-- The channel gate constant `PHOTOGRAPHY_CHANNEL_ID` (src/main.py line 20). -/
def PHOTOGRAPHY_CHANNEL_ID : ℕ := 1387102048209866932

/-- An incoming Discord message, with the externally-determined data the
handler consumes: `msg.id`, `msg.author.bot`, `msg.channel.id`,
`str(msg.author.id)`, whether `extract_image_url` finds an image URL, the
outcome of the external fetch-decode-score call `score_image(url)`
(`Except.error` models the exception caught at src/main.py line 115), and
the current UTC time `datetime.utcnow()` at processing, as a day count. -/
structure Msg where
  msgId : ℕ
  authorBot : Bool
  channelId : ℕ
  userId : String
  imageUrl : Option String
  scoreOutcome : Except String ℚ
  ts : ℚ
deriving Repr

/-- How one `on_message` call ended, mirroring the early returns of
src/main.py lines 94-131 (the command-processing side channel of line 100
is modelled separately, as explicit ledger operations). -/
inductive Outcome where
  | botSkip
  | wrongChannel
  | duplicate
  | noImage
  | scoreError (e : String)
  | scored (s : ℚ)
deriving DecidableEq, Repr

/-- Process-lifetime bot state: the `processed_messages` set
(src/main.py line 71) and the persisted database (every handler loads it,
mutates it and saves it back, so one value models the store). -/
structure BotState where
  processed : List ℕ
  db : Db
deriving DecidableEq, Repr

/-- In-place mutation of the value bound to `uid`, keeping dict order. -/
def updateVal (uid : String) (f : UserRec → UserRec) :
    List (String × UserRec) → List (String × UserRec)
  | [] => []
  | (v, r) :: rest =>
    if v = uid then (v, f r) :: updateVal uid f rest
    else (v, r) :: updateVal uid f rest

/-- The `rec = db["users"].setdefault(uid, {"scores": [], "dates": []})`
pattern followed by an in-place mutation of `rec`: update the existing
binding in place, or append a fresh one at the end of the dict order
(src/main.py line 125). -/
def updateUser (users : List (String × UserRec)) (uid : String)
    (f : UserRec → UserRec) : List (String × UserRec) :=
  if (lookupU uid users).isSome then updateVal uid f users
  else users ++ [(uid, f ⟨[], []⟩)]

/-- The ledger mutation of a successful scoring, src/main.py lines 118-130:
append the event to `"images"`, append the score to the user's `"scores"`,
and add today's UTC date to the user's `"dates"` if absent. -/
def appendEvent (db : Db) (uid : String) (s : ℚ) (ts : ℚ) : Db :=
  { images := db.images ++ [⟨uid, s, ts⟩]
    users := updateUser db.users uid (fun r =>
      let r1 : UserRec := { r with scores := r.scores ++ [s] }
      if (⌊ts⌋ : ℤ) ∈ r1.dates then r1
      else { r1 with dates := r1.dates ++ [⌊ts⌋] }) }

/-- The `on_message` handler (src/main.py lines 93-131) restricted to its
scoring path: bot check, channel gate, `processed_messages` duplicate
check, image-URL extraction, marking the message processed, the guarded
external scoring call, and on success the ledger mutation plus save. -/
def on_message (st : BotState) (m : Msg) : BotState × Outcome :=
  if m.authorBot then (st, .botSkip)
  else if m.channelId ≠ PHOTOGRAPHY_CHANNEL_ID then (st, .wrongChannel)
  else if m.msgId ∈ st.processed then (st, .duplicate)
  else
    match m.imageUrl with
    | none => (st, .noImage)
    | some _ =>
      let st1 : BotState := { st with processed := m.msgId :: st.processed }
      match m.scoreOutcome with
      | .error e => (st1, .scoreError e)
      | .ok s => ({ st1 with db := appendEvent st1.db m.userId s m.ts }, .scored s)

/-! ### Commands over the ledger -/

/-- The `ind.avg` command (src/main.py lines 148-154): `none` models the
"You have no scores yet." reply (user missing, or recorded with an empty
score list), `some` the computed lifetime average. -/
def ind_avg (db : Db) (uid : String) : Option ℚ :=
  match lookupU uid db.users with
  | none => none
  | some r => if r.scores = [] then none else some (r.scores.sum / r.scores.length)

/-- The `ind.reset` command (src/main.py lines 243-254): when the user is
present, delete the `users` entry, drop every event of that user from
`images`, save, and reply with success (`true`); otherwise leave the
database untouched and reply "No data found" (`false`). -/
def ind_reset (db : Db) (uid : String) : Db × Bool :=
  if (lookupU uid db.users).isSome then
    ({ images := db.images.filter (fun img => img.user ≠ uid)
       users := db.users.filter (fun p => p.1 ≠ uid) }, true)
  else (db, false)

/-! ### C3: idempotence of ingestion -/

/-- C3: calling the ingestion handler twice with the same submission id
records exactly one `ScoreEvent`: the first (successful) call appends the
single event, and the second call is a silent skip leaving the state
unchanged and reporting the duplicate (no event, no error). -/
theorem on_message_idempotent (st : BotState) (m m' : Msg) (url : String) (s : ℚ)
    (hbot : m.authorBot = false) (hch : m.channelId = PHOTOGRAPHY_CHANNEL_ID)
    (hfresh : m.msgId ∉ st.processed) (hurl : m.imageUrl = some url)
    (hscore : m.scoreOutcome = .ok s)
    (hid : m'.msgId = m.msgId) (hbot' : m'.authorBot = false)
    (hch' : m'.channelId = PHOTOGRAPHY_CHANNEL_ID) :
    (on_message st m).2 = .scored s ∧
    (on_message st m).1.db.images = st.db.images ++ [⟨m.userId, s, m.ts⟩] ∧
    on_message (on_message st m).1 m' = ((on_message st m).1, .duplicate) := by
  have h1 : on_message st m =
      ({ processed := m.msgId :: st.processed
         db := appendEvent st.db m.userId s m.ts }, .scored s) := by
    unfold on_message
    rw [hbot, hch, hurl, hscore]
    simp [hfresh]
  refine ⟨by rw [h1], by rw [h1]; rfl, ?_⟩
  rw [h1]
  unfold on_message
  rw [hbot', hch']
  simp [hid]

/-- Witness for C3 on a concrete run: empty state, a real submission
scoring `8`, then the same message again. -/
theorem on_message_idempotent_witness :
    (on_message ⟨[], emptyDb⟩
        ⟨1, false, PHOTOGRAPHY_CHANNEL_ID, "u", some "a.png", .ok 8, 0⟩).2 =
      .scored 8 ∧
    (on_message ⟨[], emptyDb⟩
        ⟨1, false, PHOTOGRAPHY_CHANNEL_ID, "u", some "a.png", .ok 8, 0⟩).1.db.images =
      emptyDb.images ++ [⟨"u", 8, 0⟩] ∧
    on_message
        (on_message ⟨[], emptyDb⟩
          ⟨1, false, PHOTOGRAPHY_CHANNEL_ID, "u", some "a.png", .ok 8, 0⟩).1
        ⟨1, false, PHOTOGRAPHY_CHANNEL_ID, "u", some "a.png", .ok 8, 0⟩ =
      ((on_message ⟨[], emptyDb⟩
          ⟨1, false, PHOTOGRAPHY_CHANNEL_ID, "u", some "a.png", .ok 8, 0⟩).1,
        .duplicate) :=
  on_message_idempotent ⟨[], emptyDb⟩
    ⟨1, false, PHOTOGRAPHY_CHANNEL_ID, "u", some "a.png", .ok 8, 0⟩
    ⟨1, false, PHOTOGRAPHY_CHANNEL_ID, "u", some "a.png", .ok 8, 0⟩
    "a.png" 8 rfl rfl (by simp) rfl rfl rfl rfl rfl

/-! ### Association-list lemmas -/

theorem lookupU_updateVal_self (uid : String) (f : UserRec → UserRec) :
    ∀ users : List (String × UserRec),
      lookupU uid (updateVal uid f users) = (lookupU uid users).map f
  | [] => rfl
  | (v, r) :: rest => by
    by_cases h : v = uid
    · simp only [updateVal, lookupU, if_pos h]
      rfl
    · simp only [updateVal, lookupU, if_neg h]
      exact lookupU_updateVal_self uid f rest

theorem lookupU_updateVal_other (uid v : String) (hv : v ≠ uid)
    (f : UserRec → UserRec) :
    ∀ users : List (String × UserRec),
      lookupU v (updateVal uid f users) = lookupU v users
  | [] => rfl
  | (w, r) :: rest => by
    by_cases h : w = uid
    · have hw : ¬w = v := fun hc => hv (hc ▸ h)
      simp only [updateVal, lookupU, if_pos h, if_neg hw]
      exact lookupU_updateVal_other uid v hv f rest
    · by_cases h2 : w = v
      · simp only [updateVal, lookupU, if_neg h, if_pos h2]
      · simp only [updateVal, lookupU, if_neg h, if_neg h2]
        exact lookupU_updateVal_other uid v hv f rest

theorem lookupU_append {α : Type} {u : String} :
    ∀ l l' : List (String × α),
      lookupU u (l ++ l') =
        match lookupU u l with
        | some r => some r
        | none => lookupU u l'
  | [], _ => rfl
  | (v, r) :: rest, l' => by
    by_cases h : v = u
    · simp [lookupU, h]
    · simp only [List.cons_append, lookupU, if_neg h]
      exact lookupU_append rest l'

theorem lookupU_updateUser_self (users : List (String × UserRec)) (uid : String)
    (f : UserRec → UserRec) :
    lookupU uid (updateUser users uid f) =
      some (f ((lookupU uid users).getD ⟨[], []⟩)) := by
  unfold updateUser
  by_cases h : (lookupU uid users).isSome
  · rw [if_pos h]
    obtain ⟨r, hr⟩ := Option.isSome_iff_exists.mp h
    rw [lookupU_updateVal_self, hr]
    rfl
  · rw [if_neg h]
    have hn : lookupU uid users = none := Option.not_isSome_iff_eq_none.mp h
    rw [lookupU_append, hn]
    simp [lookupU]

theorem lookupU_updateUser_other (users : List (String × UserRec))
    (uid v : String) (hv : v ≠ uid) (f : UserRec → UserRec) :
    lookupU v (updateUser users uid f) = lookupU v users := by
  unfold updateUser
  split
  · exact lookupU_updateVal_other uid v hv f users
  · rw [lookupU_append]
    cases h : lookupU v users with
    | some r => rfl
    | none => simp [lookupU, Ne.symm hv]

theorem lookupU_filter_ne {α : Type} (uid : String) :
    ∀ l : List (String × α),
      lookupU uid (l.filter (fun p => p.1 ≠ uid)) = none
  | [] => rfl
  | (v, r) :: rest => by
    by_cases h : v = uid
    · simpa [List.filter_cons, h] using lookupU_filter_ne uid rest
    · simpa [List.filter_cons, h, lookupU] using lookupU_filter_ne uid rest

theorem lookupU_filter_other {α : Type} (uid v : String) (hv : v ≠ uid) :
    ∀ l : List (String × α),
      lookupU v (l.filter (fun p => p.1 ≠ uid)) = lookupU v l
  | [] => rfl
  | (w, r) :: rest => by
    by_cases h : w = uid
    · simpa [List.filter_cons, h, lookupU, Ne.symm hv]
        using lookupU_filter_other uid v hv rest
    · by_cases h2 : w = v
      · simp [List.filter_cons, h, h2, lookupU, hv]
      · simpa [List.filter_cons, h, h2, lookupU]
          using lookupU_filter_other uid v hv rest

/-! ### Ledger operation sequences (for the C4 invariant) -/

/-- One ledger-mutating operation: a Discord message handled by
`on_message`, or an admin `ind.reset` command. -/
inductive Op where
  | msg (m : Msg)
  | reset (uid : String)

/-- Apply one operation to the bot state.  Read-only commands
(`ind.avg`, `ind.rank`, ...) do not change state and need no case. -/
def applyOp (st : BotState) : Op → BotState
  | .msg m => (on_message st m).1
  | .reset uid => { st with db := (ind_reset st.db uid).1 }

/-- Apply a finite sequence of operations, left to right. -/
def applyOps (st : BotState) (ops : List Op) : BotState := ops.foldl applyOp st

/-- Length of `users[u].scores`, with `0` for an absent user. -/
def userScoreCount (db : Db) (u : String) : ℕ :=
  ((lookupU u db.users).map (fun r => r.scores.length)).getD 0

/-- Number of events in `images` whose `user` field is `u`. -/
def eventCount (db : Db) (u : String) : ℕ :=
  (db.images.filter (fun e => e.user = u)).length

theorem userScoreCount_appendEvent_self (db : Db) (uid : String) (s ts : ℚ) :
    userScoreCount (appendEvent db uid s ts) uid = userScoreCount db uid + 1 := by
  unfold userScoreCount appendEvent
  rw [lookupU_updateUser_self]
  cases h : lookupU uid db.users with
  | none => simp [h]
  | some r =>
    simp only [h, Option.getD_some, Option.map_some', Option.getD_none]
    split <;> simp

theorem userScoreCount_appendEvent_other (db : Db) (uid v : String)
    (hv : v ≠ uid) (s ts : ℚ) :
    userScoreCount (appendEvent db uid s ts) v = userScoreCount db v := by
  unfold userScoreCount appendEvent
  rw [lookupU_updateUser_other _ _ _ hv]

theorem eventCount_appendEvent (db : Db) (uid v : String) (s ts : ℚ) :
    eventCount (appendEvent db uid s ts) v =
      eventCount db v + (if uid = v then 1 else 0) := by
  unfold eventCount appendEvent
  simp only [List.filter_append, List.length_append]
  congr 1
  simp only [List.filter_cons, List.filter_nil]
  split <;> simp_all

/-- All branches of `on_message` either leave the database alone or append
one scored event for the author. -/
theorem on_message_db_cases (st : BotState) (m : Msg) :
    (on_message st m).1.db = st.db ∨
      ∃ s, (on_message st m).1.db = appendEvent st.db m.userId s m.ts := by
  unfold on_message
  split
  · left; rfl
  · split
    · left; rfl
    · split
      · left; rfl
      · split
        · left; rfl
        · split
          · left; rfl
          · right; exact ⟨_, rfl⟩

/-- The consistency invariant of the ledger. -/
def Consistent (db : Db) : Prop := ∀ u, userScoreCount db u = eventCount db u

theorem consistent_appendEvent {db : Db} (h : Consistent db)
    (uid : String) (s ts : ℚ) : Consistent (appendEvent db uid s ts) := by
  intro u
  by_cases hu : u = uid
  · subst hu
    rw [userScoreCount_appendEvent_self, eventCount_appendEvent, h u, if_pos rfl]
  · rw [userScoreCount_appendEvent_other _ _ _ hu, eventCount_appendEvent, h u,
      if_neg (fun hc => hu hc.symm)]
    rfl

theorem consistent_reset {db : Db} (h : Consistent db) (uid : String) :
    Consistent (ind_reset db uid).1 := by
  unfold ind_reset
  split
  · intro u
    by_cases hu : u = uid
    · subst hu
      unfold userScoreCount eventCount
      rw [lookupU_filter_ne]
      simp only [Option.map_none, Option.getD_none]
      rw [List.filter_filter]
      have : ∀ e : ScoreEvent,
          (decide (e.user = u) && decide ¬e.user = u) = false := by
        intro e; by_cases he : e.user = u <;> simp [he]
      rw [List.filter_congr (fun e _ => this e)]
      simp
    · unfold userScoreCount eventCount
      rw [lookupU_filter_other _ _ hu]
      rw [List.filter_filter]
      have : ∀ e : ScoreEvent,
          (decide (e.user = u) && decide ¬e.user = uid) = decide (e.user = u) := by
        intro e
        by_cases he : e.user = u
        · simp [he, hu]
        · simp [he]
      rw [List.filter_congr (fun e _ => this e)]
      exact h u
  · exact h

theorem consistent_applyOp {st : BotState} (h : Consistent st.db) (o : Op) :
    Consistent (applyOp st o).db := by
  cases o with
  | msg m =>
    rcases on_message_db_cases st m with hdb | ⟨s, hdb⟩
    · unfold applyOp; rw [hdb]; exact h
    · unfold applyOp; rw [hdb]; exact consistent_appendEvent h m.userId s m.ts
  | reset uid => exact consistent_reset h uid

theorem consistent_applyOps {st : BotState} (h : Consistent st.db) :
    ∀ ops : List Op, Consistent (applyOps st ops).db := by
  intro ops
  induction ops generalizing st with
  | nil => exact h
  | cons o rest ih => exact ih (consistent_applyOp h o)

/-- C4: after any finite sequence of ingest and reset operations starting
from the empty ledger, every user's `users[u].scores` length equals the
number of global events carrying that user (absent users counting zero). -/
theorem ledger_consistency (ops : List Op) (u : String) :
    userScoreCount (applyOps ⟨[], emptyDb⟩ ops).db u =
      eventCount (applyOps ⟨[], emptyDb⟩ ops).db u :=
  @consistent_applyOps ⟨[], emptyDb⟩ (fun _ => rfl) ops u

/-! ### C10: a scoring error leaves the ledger unchanged but poisons the
idempotence set -/

theorem on_message_processed_cases (st : BotState) (m : Msg) :
    (on_message st m).1.processed = st.processed ∨
      (on_message st m).1.processed = m.msgId :: st.processed := by
  unfold on_message
  split
  · left; rfl
  · split
    · left; rfl
    · split
      · left; rfl
      · split
        · left; rfl
        · split
          · right; rfl
          · right; rfl

theorem processed_mono_applyOp (st : BotState) (o : Op) :
    ∀ i ∈ st.processed, i ∈ (applyOp st o).processed := by
  cases o with
  | msg m =>
    intro i hi
    rcases on_message_processed_cases st m with h | h
    · show i ∈ (on_message st m).1.processed
      rw [h]; exact hi
    · show i ∈ (on_message st m).1.processed
      rw [h]; exact List.mem_cons_of_mem _ hi
  | reset uid => exact fun i hi => hi

theorem processed_mono_applyOps (ops : List Op) :
    ∀ st : BotState, ∀ i ∈ st.processed, i ∈ (applyOps st ops).processed := by
  induction ops with
  | nil => exact fun st i hi => hi
  | cons o rest ih =>
    intro st i hi
    exact ih (applyOp st o) i (processed_mono_applyOp st o i hi)

theorem on_message_processed_skip (st : BotState) (m : Msg)
    (h : m.msgId ∈ st.processed) :
    (on_message st m).1 = st ∧ ∀ q, (on_message st m).2 ≠ .scored q := by
  unfold on_message
  by_cases hb : m.authorBot
  · simp [hb]
  · by_cases hc : m.channelId ≠ PHOTOGRAPHY_CHANNEL_ID
    · simp [hb, hc]
    · simp [hb, hc, h]

/-- C10: when the external scoring of an accepted submission fails, the
handler reports the error and leaves the ledger untouched, yet the
submission id was already added to `processed_messages` before scoring; it
stays there through any further operations, and any message carrying that
id is from then on silently skipped (state unchanged, never scored), so no
`ScoreEvent` is ever recorded for that submission in this process
lifetime. -/
theorem on_message_error_poisons (st : BotState) (m : Msg) (url e : String)
    (hbot : m.authorBot = false) (hch : m.channelId = PHOTOGRAPHY_CHANNEL_ID)
    (hfresh : m.msgId ∉ st.processed) (hurl : m.imageUrl = some url)
    (hscore : m.scoreOutcome = .error e) :
    (on_message st m).2 = .scoreError e ∧
    (on_message st m).1.db = st.db ∧
    m.msgId ∈ (on_message st m).1.processed ∧
    (∀ ops : List Op, m.msgId ∈ (applyOps (on_message st m).1 ops).processed) ∧
    (∀ st' : BotState, ∀ m' : Msg,
      m.msgId ∈ st'.processed → m'.msgId = m.msgId →
      (on_message st' m').1 = st' ∧ ∀ q, (on_message st' m').2 ≠ .scored q) := by
  have h1 : on_message st m =
      ({ st with processed := m.msgId :: st.processed }, .scoreError e) := by
    unfold on_message
    rw [hbot, hch, hurl, hscore]
    simp [hfresh]
  refine ⟨by rw [h1], by rw [h1], by rw [h1]; exact List.mem_cons_self _ _, ?_, ?_⟩
  · intro ops
    exact processed_mono_applyOps ops _ _ (by rw [h1]; exact List.mem_cons_self _ _)
  · intro st' m' hmem hid
    exact on_message_processed_skip st' m' (by rw [hid]; exact hmem)

/-- Witness for C10 on a concrete run: a failed scoring of message `2`,
followed by a reset operation and then a retry of message `2` whose
external scoring would now succeed with `9` — still skipped. -/
theorem on_message_error_poisons_witness :
    (on_message ⟨[], emptyDb⟩
        ⟨2, false, PHOTOGRAPHY_CHANNEL_ID, "u", some "b.png", .error "boom", 0⟩).2 =
      .scoreError "boom" ∧
    (on_message ⟨[], emptyDb⟩
        ⟨2, false, PHOTOGRAPHY_CHANNEL_ID, "u", some "b.png", .error "boom", 0⟩).1.db =
      emptyDb ∧
    (2 : ℕ) ∈ (applyOps
      (on_message ⟨[], emptyDb⟩
        ⟨2, false, PHOTOGRAPHY_CHANNEL_ID, "u", some "b.png", .error "boom", 0⟩).1
      [Op.reset "u"]).processed ∧
    (on_message
        (on_message ⟨[], emptyDb⟩
          ⟨2, false, PHOTOGRAPHY_CHANNEL_ID, "u", some "b.png", .error "boom", 0⟩).1
        ⟨2, false, PHOTOGRAPHY_CHANNEL_ID, "u", some "c.png", .ok 9, 1⟩).1 =
      (on_message ⟨[], emptyDb⟩
        ⟨2, false, PHOTOGRAPHY_CHANNEL_ID, "u", some "b.png", .error "boom", 0⟩).1 ∧
    (on_message
        (on_message ⟨[], emptyDb⟩
          ⟨2, false, PHOTOGRAPHY_CHANNEL_ID, "u", some "b.png", .error "boom", 0⟩).1
        ⟨2, false, PHOTOGRAPHY_CHANNEL_ID, "u", some "c.png", .ok 9, 1⟩).2 ≠
      .scored 9 := by
  have H := on_message_error_poisons ⟨[], emptyDb⟩
    ⟨2, false, PHOTOGRAPHY_CHANNEL_ID, "u", some "b.png", .error "boom", 0⟩
    "b.png" "boom" rfl rfl (by simp) rfl rfl
  have H5 := H.2.2.2.2 _
    ⟨2, false, PHOTOGRAPHY_CHANNEL_ID, "u", some "c.png", .ok 9, 1⟩
    H.2.2.1 rfl
  exact ⟨H.1, H.2.1, H.2.2.2.1 [Op.reset "u"], H5.1, H5.2 9⟩

/-! ### C5: reset semantics -/

/-- C5: resetting a user that is present deletes the `users` entry, purges
every one of their events, replies with the success indication, and a
subsequent `ind.avg` reports no data; resetting an unknown user leaves the
database unchanged and is reported distinctly (`false` vs `true`). -/
theorem ind_reset_correct (db : Db) (uid : String) :
    ((lookupU uid db.users).isSome →
      lookupU uid (ind_reset db uid).1.users = none ∧
      (ind_reset db uid).1.images.filter (fun e => e.user = uid) = [] ∧
      (ind_reset db uid).2 = true ∧
      ind_avg (ind_reset db uid).1 uid = none) ∧
    (¬(lookupU uid db.users).isSome →
      (ind_reset db uid).1 = db ∧ (ind_reset db uid).2 = false) := by
  constructor
  · intro h
    unfold ind_reset
    rw [if_pos h]
    refine ⟨lookupU_filter_ne uid db.users, ?_, rfl, ?_⟩
    · rw [List.filter_filter]
      refine List.filter_eq_nil_iff.mpr ?_
      intro e he
      by_cases hx : e.user = uid <;> simp [hx]
    · unfold ind_avg
      rw [lookupU_filter_ne]
  · intro h
    unfold ind_reset
    rw [if_neg h]
    exact ⟨rfl, rfl⟩

/-- Witness for C5: a present user `"u"` is fully purged and reported, an
absent user leaves the empty database untouched with the other report. -/
theorem ind_reset_correct_witness :
    (lookupU "u" (ind_reset ⟨[⟨"u", 8, 0⟩, ⟨"v", 6, 0⟩],
        [("u", ⟨[8], [0]⟩), ("v", ⟨[6], [0]⟩)]⟩ "u").1.users = none ∧
      (ind_reset ⟨[⟨"u", 8, 0⟩, ⟨"v", 6, 0⟩],
        [("u", ⟨[8], [0]⟩), ("v", ⟨[6], [0]⟩)]⟩ "u").1.images.filter
          (fun e => e.user = "u") = [] ∧
      (ind_reset ⟨[⟨"u", 8, 0⟩, ⟨"v", 6, 0⟩],
        [("u", ⟨[8], [0]⟩), ("v", ⟨[6], [0]⟩)]⟩ "u").2 = true ∧
      ind_avg (ind_reset ⟨[⟨"u", 8, 0⟩, ⟨"v", 6, 0⟩],
        [("u", ⟨[8], [0]⟩), ("v", ⟨[6], [0]⟩)]⟩ "u").1 "u" = none) ∧
    ((ind_reset emptyDb "u").1 = emptyDb ∧ (ind_reset emptyDb "u").2 = false) :=
  ⟨(ind_reset_correct ⟨[⟨"u", 8, 0⟩, ⟨"v", 6, 0⟩],
      [("u", ⟨[8], [0]⟩), ("v", ⟨[6], [0]⟩)]⟩ "u").1 (by simp [lookupU]),
    (ind_reset_correct emptyDb "u").2 (by simp [lookupU, emptyDb])⟩

/-! ### C6: posting streak (`ind_streak`, src/main.py lines 209-223) -/

/-- Python's stable `sorted(dates, reverse=True)` on ISO date strings:
descending order of the day numbers. -/
def sortDesc (l : List ℤ) : List ℤ := List.insertionSort (fun a b => b ≤ a) l

/-- The loop of `ind_streak` (src/main.py lines 214-219): walk the
descending-sorted date list, counting while each entry equals the expected
day (`today`, then `today - 1`, ...), and stop at the first mismatch. -/
def streakLoop : List ℤ → ℤ → ℕ
  | [], _ => 0
  | d :: ds, today => if d = today then streakLoop ds (today - 1) + 1 else 0

/-- The user's `"dates"` list, `[]` when the user is unknown
(`load_scores()["users"].get(uid, {}).get("dates", [])`). -/
def userDates (db : Db) (uid : String) : List ℤ :=
  ((lookupU uid db.users).map (fun r => r.dates)).getD []

/-- The `ind.streak` command (src/main.py lines 209-223). -/
def ind_streak (db : Db) (uid : String) (now : ℤ) : ℕ :=
  streakLoop (sortDesc (userDates db uid)) now

/-- Follows the claim's words (C6), not the source: count consecutive UTC
calendar dates ending at `now`'s date, each present in `active_dates`,
walking backward one day at a time and stopping at the first missing date.
The fuel argument only bounds the walk; with fuel `> dates.length` it
never cuts a walk short, since each counted day consumes a distinct
element of `dates`. -/
def specStreakAux (dates : List ℤ) : ℤ → ℕ → ℕ
  | _, 0 => 0
  | today, fuel + 1 =>
    if today ∈ dates then specStreakAux dates (today - 1) fuel + 1 else 0

/-- Follows the claim's words (C6): the backward-walk streak count. -/
def specStreak (dates : List ℤ) (now : ℤ) : ℕ :=
  specStreakAux dates now (dates.length + 1)

instance : IsTotal ℤ (fun a b => b ≤ a) := ⟨fun a b => le_total b a⟩

instance : IsTrans ℤ (fun a b => b ≤ a) := ⟨fun _ _ _ h1 h2 => le_trans h2 h1⟩

/-- Counterexample to C6 as stated: the user posts on day `0` and day `1`,
and the reference date `now` is day `0`.  Day `0` is in `active_dates`, so
the claimed backward walk counts `1`, but the code walks the
descending-sorted list `[1, 0]`, sees `1 ≠ 0` first, and returns `0`. -/
theorem ind_streak_counterexample :
    ind_streak ⟨[⟨"u", 7, 0⟩, ⟨"u", 8, 1⟩], [("u", ⟨[7, 8], [0, 1]⟩)]⟩ "u" 0 = 0 ∧
    specStreak (userDates
      ⟨[⟨"u", 7, 0⟩, ⟨"u", 8, 1⟩], [("u", ⟨[7, 8], [0, 1]⟩)]⟩ "u") 0 = 1 ∧
    ind_streak ⟨[⟨"u", 7, 0⟩, ⟨"u", 8, 1⟩], [("u", ⟨[7, 8], [0, 1]⟩)]⟩ "u" 0 ≠
      specStreak (userDates
        ⟨[⟨"u", 7, 0⟩, ⟨"u", 8, 1⟩], [("u", ⟨[7, 8], [0, 1]⟩)]⟩ "u") 0 := by
  decide

theorem specStreakAux_congr {L L' : List ℤ} (f : ℕ) :
    ∀ t : ℤ, (∀ x : ℤ, x ≤ t → (x ∈ L ↔ x ∈ L')) →
      specStreakAux L t f = specStreakAux L' t f := by
  induction f with
  | zero => intro t _; rfl
  | succ f ih =>
    intro t h
    simp only [specStreakAux]
    by_cases ht : t ∈ L
    · rw [if_pos ht, if_pos ((h t le_rfl).mp ht),
        ih (t - 1) (fun x hx => h x (by omega))]
    · rw [if_neg ht, if_neg (fun hc => ht ((h t le_rfl).mpr hc))]

theorem streakLoop_eq_specStreakAux :
    ∀ (S : List ℤ) (t : ℤ) (f : ℕ), S.Pairwise (fun a b => b < a) →
      (∀ d ∈ S, d ≤ t) → S.length < f →
      streakLoop S t = specStreakAux S t f := by
  intro S
  induction S with
  | nil =>
    intro t f _ _ hf
    cases f with
    | zero => omega
    | succ f => simp [streakLoop, specStreakAux]
  | cons d ds ih =>
    intro t f hpw hle hf
    cases f with
    | zero => omega
    | succ f =>
      have hhead : ∀ b ∈ ds, b < d := (List.pairwise_cons.mp hpw).1
      by_cases hd : d = t
      · have hmem : t ∈ d :: ds := by rw [← hd]; exact List.mem_cons_self d ds
        simp only [streakLoop, specStreakAux, if_pos hd, if_pos hmem]
        have hcongr : specStreakAux (d :: ds) (t - 1) f =
            specStreakAux ds (t - 1) f := by
          refine specStreakAux_congr f (t - 1) (fun x hx => ?_)
          constructor
          · intro hx2
            rcases List.mem_cons.mp hx2 with h1 | h1
            · omega
            · exact h1
          · exact fun h1 => List.mem_cons_of_mem d h1
        rw [hcongr, ih (t - 1) f (List.Pairwise.of_cons hpw)
          (fun e he => by have := hhead e he; omega) (by simpa using Nat.lt_of_succ_lt_succ hf)]
      · have hmem : t ∉ d :: ds := by
          intro hc
          rcases List.mem_cons.mp hc with h1 | h1
          · exact hd h1.symm
          · have h2 := hhead t h1
            have h3 := hle d (List.mem_cons_self d ds)
            omega
        simp only [streakLoop, specStreakAux, if_neg hd, if_neg hmem]

/-- C6 amended: the claim holds provided the user's recorded dates are
pairwise distinct (as the ledger maintains, src/main.py line 128) and none
is later than `now`'s date — the counterexample shows the code returns `0`
instead of walking past a future-dated entry. -/
theorem ind_streak_amended (db : Db) (uid : String) (now : ℤ)
    (hnd : (userDates db uid).Nodup)
    (hle : ∀ d ∈ userDates db uid, d ≤ now) :
    ind_streak db uid now = specStreak (userDates db uid) now := by
  have hperm := List.perm_insertionSort (fun a b : ℤ => b ≤ a) (userDates db uid)
  have hsorted : (sortDesc (userDates db uid)).Pairwise (fun a b : ℤ => b ≤ a) :=
    List.sorted_insertionSort (fun a b : ℤ => b ≤ a) (userDates db uid)
  have hnodup2 : (sortDesc (userDates db uid)).Nodup := hperm.nodup_iff.mpr hnd
  have hstrict : (sortDesc (userDates db uid)).Pairwise (fun a b : ℤ => b < a) :=
    hsorted.imp₂ (fun _ _ h hne => lt_of_le_of_ne h (Ne.symm hne)) hnodup2
  have hle' : ∀ d ∈ sortDesc (userDates db uid), d ≤ now :=
    fun d hd => hle d (hperm.mem_iff.mp hd)
  have hlen : (sortDesc (userDates db uid)).length = (userDates db uid).length :=
    hperm.length_eq
  unfold ind_streak specStreak
  rw [streakLoop_eq_specStreakAux (sortDesc (userDates db uid)) now
    ((userDates db uid).length + 1) hstrict hle' (by omega)]
  exact specStreakAux_congr _ now (fun x _ => hperm.mem_iff)

/-- Witness for C6 amended: three consecutive posting days `0,1,2` queried
on day `2` give a streak of `3` on both sides. -/
theorem ind_streak_amended_witness :
    (userDates ⟨[], [("u", ⟨[5, 5, 5], [0, 1, 2]⟩)]⟩ "u").Nodup ∧
    ind_streak ⟨[], [("u", ⟨[5, 5, 5], [0, 1, 2]⟩)]⟩ "u" 2 =
      specStreak (userDates ⟨[], [("u", ⟨[5, 5, 5], [0, 1, 2]⟩)]⟩ "u") 2 :=
  ⟨by decide,
    ind_streak_amended ⟨[], [("u", ⟨[5, 5, 5], [0, 1, 2]⟩)]⟩ "u" 2
      (by decide) (by decide)⟩

/-! ### C7: weekly leaderboard (`ind_week`, src/main.py lines 187-199) -/

/-- Arithmetic mean `sum(scores) / len(scores)`. -/
def avgList (l : List ℚ) : ℚ := l.sum / l.length

/-- The `recent.setdefault(img["user"], []).append(img["score"])` step:
append the score to the user's bucket, creating it at the end of dict
order when absent (src/main.py line 195). -/
def addScore : List (String × List ℚ) → String → ℚ → List (String × List ℚ)
  | [], u, s => [(u, [s])]
  | (v, l) :: rest, u, s =>
    if v = u then (v, l ++ [s]) :: rest else (v, l) :: addScore rest u s

/-- The `recent` dict built by the loop of src/main.py lines 192-195: group
scores of events with `ts > cutoff` by user, in event order. -/
def recentGroups (images : List ScoreEvent) (cutoff : ℚ) :
    List (String × List ℚ) :=
  images.foldl
    (fun acc e => if cutoff < e.ts then addScore acc e.user e.score else acc) []

/-- The `ind.week` board (src/main.py lines 189-199): per-user averages of
the window groups, stable-sorted descending by average, first five.
`List.insertionSort` with `b.2 ≤ a.2` places earlier entries before later
equal-average ones, exactly like Python's stable
`sorted(key=..., reverse=True)`. -/
def weekBoard (images : List ScoreEvent) (now : ℚ) : List (String × ℚ) :=
  (List.insertionSort (fun a b : String × ℚ => b.2 ≤ a.2)
    ((recentGroups images (now - 7)).map (fun p => (p.1, avgList p.2)))).take 5

/-- The `ind.week` command over the loaded database. -/
def ind_week (db : Db) (now : ℚ) : List (String × ℚ) := weekBoard db.images now

/-- The scores of user `u`'s events inside the 7-day window, in event
order. -/
def windowScores (images : List ScoreEvent) (now : ℚ) (u : String) : List ℚ :=
  (images.filter (fun e => now - 7 < e.ts ∧ e.user = u)).map (fun e => e.score)

theorem lookupU_addScore_self (u : String) (s : ℚ) :
    ∀ acc : List (String × List ℚ),
      lookupU u (addScore acc u s) = some ((lookupU u acc).getD [] ++ [s])
  | [] => by simp [addScore, lookupU]
  | (v, l) :: rest => by
    by_cases h : v = u
    · simp [addScore, lookupU, if_pos h]
    · simp only [addScore, lookupU, if_neg h]
      exact lookupU_addScore_self u s rest

theorem lookupU_addScore_other (u v : String) (hv : v ≠ u) (s : ℚ) :
    ∀ acc : List (String × List ℚ),
      lookupU v (addScore acc u s) = lookupU v acc
  | [] => by simp [addScore, lookupU, Ne.symm hv]
  | (w, l) :: rest => by
    by_cases h : w = u
    · have hw : ¬w = v := fun hc => hv (hc ▸ h)
      simp only [addScore, lookupU, if_pos h, if_neg hw]
    · simp only [addScore, lookupU, if_neg h]
      by_cases h2 : w = v
      · simp only [if_pos h2]
      · simp only [if_neg h2]
        exact lookupU_addScore_other u v hv s rest

theorem mem_keys_addScore (u x : String) (s : ℚ) :
    ∀ acc : List (String × List ℚ),
      (x ∈ (addScore acc u s).map Prod.fst ↔ x ∈ acc.map Prod.fst ∨ x = u)
  | [] => by simp [addScore]
  | (v, l) :: rest => by
    by_cases h : v = u
    · simp only [addScore, if_pos h, List.map_cons, List.mem_cons]
      constructor
      · rintro (h1 | h1)
        · exact Or.inl (Or.inl h1)
        · exact Or.inl (Or.inr h1)
      · rintro ((h1 | h1) | h1)
        · exact Or.inl h1
        · exact Or.inr h1
        · rw [← h] at h1
          exact Or.inl h1
    · simp only [addScore, if_neg h, List.map_cons, List.mem_cons,
        mem_keys_addScore u x s rest]
      tauto

theorem nodup_keys_addScore (u : String) (s : ℚ) :
    ∀ acc : List (String × List ℚ), (acc.map Prod.fst).Nodup →
      ((addScore acc u s).map Prod.fst).Nodup
  | [], _ => by simp [addScore]
  | (v, l) :: rest, hnd => by
    rw [List.map_cons, List.nodup_cons] at hnd
    by_cases h : v = u
    · simp only [addScore, if_pos h, List.map_cons, List.nodup_cons]
      exact hnd
    · simp only [addScore, if_neg h, List.map_cons, List.nodup_cons]
      refine ⟨fun hc => ?_, nodup_keys_addScore u s rest hnd.2⟩
      rcases (mem_keys_addScore u v s rest).mp hc with h1 | h1
      · exact hnd.1 h1
      · exact h h1

theorem lookupU_of_mem_nodup {α : Type} :
    ∀ {l : List (String × α)}, (l.map Prod.fst).Nodup →
      ∀ {u : String} {r : α}, (u, r) ∈ l → lookupU u l = some r := by
  intro l
  induction l with
  | nil => intro _ u r hm; cases hm
  | cons p rest ih =>
    intro hnd u r hm
    rw [List.map_cons, List.nodup_cons] at hnd
    rcases List.mem_cons.mp hm with h1 | h1
    · rw [← h1]
      simp [lookupU]
    · have hne : ¬p.1 = u := by
        intro hc
        exact hnd.1 (hc ▸ List.mem_map_of_mem Prod.fst h1)
      cases p with
      | mk v x =>
        simp only [lookupU, if_neg hne]
        exact ih hnd.2 h1

/-- How one lookup result combines with the further window scores that the
grouping loop will still append. -/
def combineW : Option (List ℚ) → List ℚ → Option (List ℚ)
  | some l, ws => some (l ++ ws)
  | none, ws => if ws = [] then none else some ws

theorem filter_cons_true {α : Type} (p : α → Bool) (a : α) (l : List α)
    (h : p a = true) : (a :: l).filter p = a :: l.filter p := by
  simp [List.filter_cons, h]

theorem filter_cons_false {α : Type} (p : α → Bool) (a : α) (l : List α)
    (h : p a = false) : (a :: l).filter p = l.filter p := by
  simp [List.filter_cons, h]

theorem lookupU_foldl_addScore (c : ℚ) (u : String) :
    ∀ (images : List ScoreEvent) (acc : List (String × List ℚ)),
      lookupU u (images.foldl
          (fun acc e => if c < e.ts then addScore acc e.user e.score else acc) acc) =
        combineW (lookupU u acc)
          ((images.filter (fun e => c < e.ts ∧ e.user = u)).map (fun e => e.score))
  | [], acc => by
    cases h : lookupU u acc <;> simp [combineW, h]
  | e :: rest, acc => by
    by_cases hts : c < e.ts
    · by_cases hu : e.user = u
      · rw [List.foldl_cons, if_pos hts,
          lookupU_foldl_addScore c u rest (addScore acc e.user e.score),
          filter_cons_true (fun e => decide (c < e.ts ∧ e.user = u)) e rest
            (by simp [hts, hu]),
          List.map_cons, hu, lookupU_addScore_self]
        cases hacc : lookupU u acc with
        | some l => simp [combineW, hacc]
        | none => simp [combineW, hacc]
      · rw [List.foldl_cons, if_pos hts,
          lookupU_foldl_addScore c u rest (addScore acc e.user e.score),
          filter_cons_false (fun e => decide (c < e.ts ∧ e.user = u)) e rest
            (by simp [hu]),
          lookupU_addScore_other e.user u (fun hc => hu hc.symm)]
    · rw [List.foldl_cons, if_neg hts, lookupU_foldl_addScore c u rest acc,
        filter_cons_false (fun e => decide (c < e.ts ∧ e.user = u)) e rest
          (by simp [hts])]

theorem lookupU_recentGroups (images : List ScoreEvent) (now : ℚ) (u : String) :
    lookupU u (recentGroups images (now - 7)) =
      if windowScores images now u = [] then none
      else some (windowScores images now u) := by
  unfold recentGroups windowScores
  rw [lookupU_foldl_addScore]
  simp [combineW, lookupU]

theorem nodup_keys_recentGroups (images : List ScoreEvent) (c : ℚ) :
    ((recentGroups images c).map Prod.fst).Nodup := by
  unfold recentGroups
  suffices h : ∀ (imgs : List ScoreEvent) (acc : List (String × List ℚ)),
      (acc.map Prod.fst).Nodup →
      ((imgs.foldl
        (fun acc e => if c < e.ts then addScore acc e.user e.score else acc)
        acc).map Prod.fst).Nodup by
    exact h images [] (by simp)
  intro imgs
  induction imgs with
  | nil => exact fun acc h => h
  | cons e rest ih =>
    intro acc hnd
    simp only [List.foldl_cons]
    by_cases hts : c < e.ts
    · rw [if_pos hts]
      exact ih _ (nodup_keys_addScore e.user e.score acc hnd)
    · rw [if_neg hts]
      exact ih _ hnd

instance : IsTotal (String × ℚ) (fun a b => b.2 ≤ a.2) :=
  ⟨fun a b => le_total b.2 a.2⟩

instance : IsTrans (String × ℚ) (fun a b => b.2 ≤ a.2) :=
  ⟨fun _ _ _ h1 h2 => le_trans h2 h1⟩

/-- C7: the weekly leaderboard considers exactly the events with
`timestamp > now - 7 days` — for every user the grouped bucket is exactly
that user's window scores, absent precisely when the user has no event in
the window; every board entry belongs to a user with a non-empty window
and carries the average over that window only; and the board is ordered
descending by that average. -/
theorem ind_week_correct (db : Db) (now : ℚ) :
    (∀ u : String,
      lookupU u (recentGroups db.images (now - 7)) =
        if windowScores db.images now u = [] then none
        else some (windowScores db.images now u)) ∧
    (∀ p ∈ ind_week db now,
      windowScores db.images now p.1 ≠ [] ∧
      p.2 = avgList (windowScores db.images now p.1)) ∧
    (ind_week db now).Sorted (fun a b => b.2 ≤ a.2) := by
  refine ⟨fun u => lookupU_recentGroups db.images now u, ?_, ?_⟩
  · intro p hp
    have hp1 : p ∈ List.insertionSort (fun a b : String × ℚ => b.2 ≤ a.2)
        ((recentGroups db.images (now - 7)).map (fun q => (q.1, avgList q.2))) :=
      List.mem_of_mem_take hp
    have hp2 : p ∈ (recentGroups db.images (now - 7)).map
        (fun q => (q.1, avgList q.2)) :=
      (List.mem_insertionSort _).mp hp1
    obtain ⟨q, hq, rfl⟩ := List.mem_map.mp hp2
    have hlk : lookupU q.1 (recentGroups db.images (now - 7)) = some q.2 :=
      lookupU_of_mem_nodup (nodup_keys_recentGroups db.images (now - 7))
        (by simpa using hq)
    rw [lookupU_recentGroups] at hlk
    by_cases hw : windowScores db.images now q.1 = []
    · rw [if_pos hw] at hlk; cases hlk
    · rw [if_neg hw] at hlk
      have hq2 : q.2 = windowScores db.images now q.1 := by
        injection hlk with h; exact h.symm
      exact ⟨hw, by rw [hq2]⟩
  · have hs : (List.insertionSort (fun a b : String × ℚ => b.2 ≤ a.2)
        ((recentGroups db.images (now - 7)).map
          (fun q => (q.1, avgList q.2)))).Sorted (fun a b => b.2 ≤ a.2) :=
      List.sorted_insertionSort _ _
    exact hs.sublist (List.take_sublist 5 _)

/-- Witness for C7: events at `now - 1` (score 8, user `"a"`) and
`now - 9` (score 9, user `"b"`) with `now = 10`: only `"a"` appears, with
average 8. -/
theorem ind_week_correct_witness :
    (lookupU "a" (recentGroups [⟨"a", 8, 9⟩, ⟨"b", 9, 1⟩] (10 - 7)) =
      if windowScores [⟨"a", 8, 9⟩, ⟨"b", 9, 1⟩] 10 "a" = [] then none
      else some (windowScores [⟨"a", 8, 9⟩, ⟨"b", 9, 1⟩] 10 "a")) ∧
    (windowScores [⟨"a", 8, 9⟩, ⟨"b", 9, 1⟩] 10 "a" ≠ [] ∧
      avgList [8] = avgList (windowScores [⟨"a", 8, 9⟩, ⟨"b", 9, 1⟩] 10 "a")) ∧
    (ind_week ⟨[⟨"a", 8, 9⟩, ⟨"b", 9, 1⟩], []⟩ 10).Sorted
      (fun a b => b.2 ≤ a.2) := by
  have H := ind_week_correct ⟨[⟨"a", 8, 9⟩, ⟨"b", 9, 1⟩], []⟩ 10
  have hmem : (("a", avgList [8]) : String × ℚ) ∈
      ind_week ⟨[⟨"a", 8, 9⟩, ⟨"b", 9, 1⟩], []⟩ 10 := by
    have hb : ind_week ⟨[⟨"a", 8, 9⟩, ⟨"b", 9, 1⟩], []⟩ 10 =
        [("a", avgList [8])] := by
      norm_num [ind_week, weekBoard, recentGroups, addScore,
        List.insertionSort, List.orderedInsert]
    rw [hb]
    exact List.mem_singleton.mpr rfl
  exact ⟨H.1 "a", H.2.1 ("a", avgList [8]) hmem, H.2.2⟩

/-! ### C8: all-time rank (`ind_rank`, src/main.py lines 172-185) -/

/-- Lifetime average of one user record, `sum(u["scores"]) / len(u["scores"])`. -/
def userAvg (r : UserRec) : ℚ := r.scores.sum / r.scores.length

/-- The all-time board of src/main.py lines 175-178: users with at least
one score, paired with their averages, stable-sorted descending by
average (Python's stable `sorted(key=..., reverse=True)`). -/
def rankBoard (users : List (String × UserRec)) : List (String × ℚ) :=
  List.insertionSort (fun a b : String × ℚ => b.2 ≤ a.2)
    ((users.filter (fun p => p.2.scores ≠ [])).map (fun p => (p.1, userAvg p.2)))

/-- The `ind.rank` command (src/main.py lines 172-185): `none` models the
"not ranked yet" reply, `some pos` the 1-based `uids.index(me) + 1`. -/
def ind_rank (db : Db) (uid : String) : Option ℕ :=
  if uid ∈ (rankBoard db.users).map Prod.fst then
    some (List.indexOf uid ((rankBoard db.users).map Prod.fst) + 1)
  else none

/-- Follows the claim's words (C8), not the source: `a` may precede `b`
when `a` has the strictly larger average, or on equal averages when `a`
was seen first (smaller index in the users mapping). -/
def specRel (a b : ℕ × (String × ℚ)) : Prop :=
  b.2.2 < a.2.2 ∨ (a.2.2 = b.2.2 ∧ a.1 ≤ b.1)

instance : DecidableRel specRel := fun a b => by
  unfold specRel; infer_instance

/-- Follows the claim's words (C8): the scored users tagged with their
first-seen position, sorted by descending average with ties broken by that
position. -/
def specBoard (users : List (String × UserRec)) : List (ℕ × (String × ℚ)) :=
  List.insertionSort specRel
    (((users.filter (fun p => p.2.scores ≠ [])).map
      (fun p => (p.1, userAvg p.2))).enum)

/-- Follows the claim's words (C8): the 1-based position of `uid` in the
spec ordering, `none` when the user has no scores. -/
def specRank (users : List (String × UserRec)) (uid : String) : Option ℕ :=
  if uid ∈ (specBoard users).map (fun x => x.2.1) then
    some (List.indexOf uid ((specBoard users).map (fun x => x.2.1)) + 1)
  else none

theorem orderedInsert_snd_agree (x : ℕ × (String × ℚ)) :
    ∀ l : List (ℕ × (String × ℚ)), (∀ y ∈ l, x.1 < y.1) →
      (List.orderedInsert specRel x l).map Prod.snd =
        List.orderedInsert (fun a b : String × ℚ => b.2 ≤ a.2) x.2
          (l.map Prod.snd)
  | [] => fun _ => rfl
  | y :: ys => fun h => by
    have hxy : x.1 < y.1 := h y (List.mem_cons_self y ys)
    by_cases hr : specRel x y
    · have hle : y.2.2 ≤ x.2.2 := by
        rcases hr with h1 | ⟨h1, _⟩
        · exact le_of_lt h1
        · exact le_of_eq h1.symm
      rw [List.map_cons, List.orderedInsert, List.orderedInsert,
        if_pos hr, if_pos hle, List.map_cons, List.map_cons]
    · have hle : ¬y.2.2 ≤ x.2.2 := by
        intro hc
        rcases lt_or_eq_of_le hc with h1 | h1
        · exact hr (Or.inl h1)
        · exact hr (Or.inr ⟨h1.symm, le_of_lt hxy⟩)
      rw [List.map_cons, List.orderedInsert, List.orderedInsert,
        if_neg hr, if_neg hle, List.map_cons,
        orderedInsert_snd_agree x ys (fun z hz => h z (List.mem_cons_of_mem y hz))]

theorem insertionSort_snd_agree :
    ∀ l : List (ℕ × (String × ℚ)), l.Pairwise (fun a b => a.1 < b.1) →
      (List.insertionSort specRel l).map Prod.snd =
        List.insertionSort (fun a b : String × ℚ => b.2 ≤ a.2)
          (l.map Prod.snd)
  | [] => fun _ => rfl
  | x :: xs => fun hpw => by
    rw [List.map_cons, List.insertionSort, List.insertionSort,
      orderedInsert_snd_agree x (List.insertionSort specRel xs)
        (fun y hy => (List.pairwise_cons.mp hpw).1 y
          ((List.mem_insertionSort specRel).mp hy)),
      insertionSort_snd_agree xs (List.Pairwise.of_cons hpw)]

theorem enum_pairwise_fst {α : Type} (l : List α) :
    l.enum.Pairwise (fun a b => a.1 < b.1) := by
  have h1 : (l.enum.map Prod.fst).Pairwise (· < ·) := by
    rw [List.enum_map_fst]
    exact List.pairwise_lt_range l.length
  exact List.pairwise_map.mp h1

theorem specBoard_snd (users : List (String × UserRec)) :
    (specBoard users).map Prod.snd = rankBoard users := by
  unfold specBoard rankBoard
  rw [insertionSort_snd_agree _ (enum_pairwise_fst _), List.enum_map_snd]

/-- C8: `ind.rank` computes exactly the 1-based position in the claim's
ordering — descending by average over users with at least one score, ties
broken by first-seen order in the users mapping — and reports `none`
("unranked") precisely for users carrying no scores. -/
theorem ind_rank_correct (db : Db) (uid : String) :
    ind_rank db uid = specRank db.users uid ∧
    (ind_rank db uid = none ↔ ∀ p ∈ db.users, p.1 = uid → p.2.scores = []) := by
  have hids : (specBoard db.users).map (fun x => x.2.1) =
      (rankBoard db.users).map Prod.fst := by
    have : (fun x : ℕ × (String × ℚ) => x.2.1) = Prod.fst ∘ Prod.snd := rfl
    rw [this, ← List.map_map, specBoard_snd]
  constructor
  · unfold ind_rank specRank
    rw [hids]
  · unfold ind_rank
    have hmem_iff : uid ∈ (rankBoard db.users).map Prod.fst ↔
        ∃ p ∈ db.users, p.1 = uid ∧ p.2.scores ≠ [] := by
      unfold rankBoard
      constructor
      · intro hmem
        obtain ⟨x, hx, hxeq⟩ := List.mem_map.mp hmem
        have hx2 := (List.mem_insertionSort _).mp hx
        obtain ⟨p, hp, hpeq⟩ := List.mem_map.mp hx2
        have hpf := List.mem_filter.mp hp
        refine ⟨p, hpf.1, ?_, by simpa using hpf.2⟩
        rw [← hxeq, ← hpeq]
      · rintro ⟨p, hp, hpeq, hpsc⟩
        refine List.mem_map.mpr ⟨(p.1, userAvg p.2), ?_, hpeq⟩
        refine (List.mem_insertionSort _).mpr ?_
        exact List.mem_map.mpr ⟨p, List.mem_filter.mpr ⟨hp, by simpa using hpsc⟩, rfl⟩
    by_cases hmem : uid ∈ (rankBoard db.users).map Prod.fst
    · rw [if_pos hmem]
      constructor
      · intro hc; cases hc
      · intro hall
        exfalso
        obtain ⟨p, hp, hpeq, hpsc⟩ := hmem_iff.mp hmem
        exact hpsc (hall p hp hpeq)
    · rw [if_neg hmem]
      constructor
      · intro _ p hp hpeq
        by_contra hsc
        exact hmem (hmem_iff.mpr ⟨p, hp, hpeq, hsc⟩)
      · intro _; rfl

/-- Witness for C8: with averages `"a" ↦ 2`, `"b" ↦ 9` and an unscored
`"c"`, the rank of `"a"` agrees with the spec ordering (position 2) and
`"c"` is unranked. -/
theorem ind_rank_correct_witness :
    ind_rank ⟨[], [("a", ⟨[2], [0]⟩), ("b", ⟨[9], [0]⟩), ("c", ⟨[], []⟩)]⟩ "a" =
      specRank [("a", ⟨[2], [0]⟩), ("b", ⟨[9], [0]⟩), ("c", ⟨[], []⟩)] "a" ∧
    ind_rank ⟨[], [("a", ⟨[2], [0]⟩), ("b", ⟨[9], [0]⟩), ("c", ⟨[], []⟩)]⟩ "c" =
      none :=
  ⟨(ind_rank_correct ⟨[], [("a", ⟨[2], [0]⟩), ("b", ⟨[9], [0]⟩),
      ("c", ⟨[], []⟩)]⟩ "a").1,
    (ind_rank_correct ⟨[], [("a", ⟨[2], [0]⟩), ("b", ⟨[9], [0]⟩),
      ("c", ⟨[], []⟩)]⟩ "c").2.mpr (by decide)⟩

/-! ### C9: persistence round trip (`save_scores` / `load_scores`,
src/main.py lines 42-48)

The source delegates serialisation to Python's `json` module, which
round-trips the document exactly (dict insertion order is preserved, float
`repr` round-trips).  We model the persisted JSON document of spec §6:
`{"images": [{"user", "score", "ts"}, ...], "users": {uid: {"scores",
"dates"}, ...}}`, with the ISO timestamp and date strings represented by
their numeric time values (they round-trip through their string forms
exactly). -/

/-- A JSON value: string, number, array or object (insertion-ordered). -/
inductive Json where
  | str (s : String)
  | num (q : ℚ)
  | jarr (xs : List Json)
  | obj (kvs : List (String × Json))

/-- Serialise one `"images"` entry. -/
def eventToJson (e : ScoreEvent) : Json :=
  .obj [("user", .str e.user), ("score", .num e.score), ("ts", .num e.ts)]

/-- Serialise one `"users"` entry. -/
def userToJson (r : UserRec) : Json :=
  .obj [("scores", .jarr (r.scores.map Json.num)),
    ("dates", .jarr (r.dates.map (fun d : ℤ => Json.num (d : ℚ))))]

/-- Serialise the whole database (`save_scores`, modulo file mechanics). -/
def dbToJson (db : Db) : Json :=
  .obj [("images", .jarr (db.images.map eventToJson)),
    ("users", .obj (db.users.map (fun p => (p.1, userToJson p.2))))]

/-- Collect a list of decode results, failing if any entry fails. -/
def optList {α : Type} : List (Option α) → Option (List α)
  | [] => some []
  | o :: rest => o.bind (fun a => (optList rest).map (fun l => a :: l))

/-- Decode one `"images"` entry, rejecting malformed shapes. -/
def eventFromJson : Json → Option ScoreEvent
  | .obj [("user", .str u), ("score", .num s), ("ts", .num t)] => some ⟨u, s, t⟩
  | _ => none

/-- Decode a JSON number. -/
def numFromJson : Json → Option ℚ
  | .num q => some q
  | _ => none

/-- Decode a calendar date, which must be an integral number. -/
def dateFromJson : Json → Option ℤ
  | .num q => if q.den = 1 then some q.num else none
  | _ => none

/-- Decode one `"users"` entry. -/
def userFromJson : Json → Option UserRec
  | .obj [("scores", .jarr ss), ("dates", .jarr ds)] =>
    match optList (ss.map numFromJson), optList (ds.map dateFromJson) with
    | some scores, some dates => some ⟨scores, dates⟩
    | _, _ => none
  | _ => none

/-- Decode the whole database (`load_scores`, modulo file mechanics). -/
def dbFromJson : Json → Option Db
  | .obj [("images", .jarr imgs), ("users", .obj us)] =>
    match optList (imgs.map eventFromJson),
        optList (us.map (fun p => (userFromJson p.2).map (fun r => (p.1, r)))) with
    | some images, some users => some ⟨images, users⟩
    | _, _ => none
  | _ => none

theorem optList_roundtrip {α β : Type} (enc : α → β) (dec : β → Option α)
    (h : ∀ a, dec (enc a) = some a) :
    ∀ l : List α, optList ((l.map enc).map dec) = some l
  | [] => rfl
  | a :: rest => by
    simp only [List.map_cons, optList, h a, Option.some_bind,
      optList_roundtrip enc dec h rest, Option.map_some']

theorem eventFromJson_eventToJson (e : ScoreEvent) :
    eventFromJson (eventToJson e) = some e := rfl

theorem dateFromJson_intCast (d : ℤ) :
    dateFromJson (Json.num (d : ℚ)) = some d := by
  simp only [dateFromJson]
  rw [if_pos (Rat.den_intCast d), Rat.num_intCast]

theorem userFromJson_userToJson (r : UserRec) :
    userFromJson (userToJson r) = some r := by
  cases r with
  | mk scores dates =>
    simp only [userToJson, userFromJson]
    rw [optList_roundtrip Json.num numFromJson (fun a => rfl) scores,
      optList_roundtrip (fun d : ℤ => Json.num (d : ℚ)) dateFromJson
        dateFromJson_intCast dates]

/-- C9: persisting any ledger and reloading it yields the identical
ledger — the same events in the same order and the same per-user rollups
(score sequences and date lists). -/
theorem db_json_roundtrip (db : Db) : dbFromJson (dbToJson db) = some db := by
  cases db with
  | mk images users =>
    simp only [dbToJson, dbFromJson]
    rw [optList_roundtrip eventToJson eventFromJson eventFromJson_eventToJson
        images,
      optList_roundtrip (fun p => (p.1, userToJson p.2))
        (fun p => (userFromJson p.2).map (fun r => (p.1, r)))
        (fun p => by simp [userFromJson_userToJson]) users]

end INDArtist
